import Mathlib

/-!
Shallow embedding of `scripts/create_release.py` (the Release Promoter).

The script reads a version registry (an insertion-ordered mapping
`releases : version-string → provenance-id` plus `aliases : name → version-string`),
checks that the git working tree is clean, parses `aliases["latest"]`,
increments the last component, creates a branch, records the new release,
re-sorts `releases` descending by parsed version, repoints the alias and
writes the file back.

Python dicts are modelled as insertion-ordered association lists
(`List (String × String)`); `int(...)` applied to the tokens of a version
string is modelled as a parser of non-empty all-digit strings (the only
shape that occurs for version components, since `.` and `-` are the token
delimiters), failing otherwise, mirroring `ValueError`; every failure path
of the script (KeyError, ValueError) is an uncaught exception that
terminates the process with a nonzero exit code before the registry file
is written.
-/

namespace CreateRelease

/-- The delimiter class of `re.split('[.-]', ...)`. -/
def isDelim (c : Char) : Bool := c = '.' || c = '-'

/-- `re.split('[.-]', s)` on the character list of `s`: split into tokens at
every delimiter, keeping empty tokens (as `re.split` does). -/
def splitTokens : List Char → List (List Char)
  | [] => [[]]
  | c :: cs =>
    let r := splitTokens cs
    if isDelim c then [] :: r
    else (c :: r.headD []) :: r.tail

/-- `int(part)` for a version-string token: a non-empty string of decimal
digits parses to its value; anything else raises (returns `none`). -/
def parseNat (l : List Char) : Option Nat :=
  if l ≠ [] ∧ l.all Char.isDigit then
    some (l.foldl (fun a c => 10 * a + (c.toNat - 48)) 0)
  else none

/-- `version_to_list(version_string)`:
`[int(part) for part in re.split('[.-]', version_string)[:3]]`,
`none` when some retained token fails to parse. -/
def versionToList (s : String) : Option (List Nat) :=
  ((splitTokens s.data).take 3).mapM parseNat

/-- `new_version[-1] += 1`: add one to the last element of the list. -/
def incLast : List Nat → List Nat
  | [] => []
  | [a] => [a + 1]
  | a :: b :: rest => a :: incLast (b :: rest)

/-- `'.'.join(str(part) for part in new_version)`. -/
def joinVer (l : List Nat) : String :=
  String.intercalate "." (l.map (fun n => toString n))

/-- `f"version_{'_'.join(str(part) for part in new_version)}"`. -/
def branchName (l : List Nat) : String :=
  "version_" ++ String.intercalate "_" (l.map (fun n => toString n))

/-- Python dict assignment `d[k] = v` on an insertion-ordered association
list: update the value in place if the key is present, append otherwise. -/
def setKey (l : List (String × String)) (k v : String) : List (String × String) :=
  if l.any (fun p => p.1 = k) then
    l.map (fun p => if p.1 = k then (k, v) else p)
  else l ++ [(k, v)]

/-- Python list comparison `a <= b` on `List Nat` (lexicographic; a strict
prefix is smaller). -/
def listLe : List Nat → List Nat → Bool
  | [], _ => true
  | _ :: _, [] => false
  | a :: as, b :: bs => if a < b then true else if b < a then false else listLe as bs

/-- Python list comparison `a < b` on `List Nat`. -/
def listLt : List Nat → List Nat → Bool
  | [], [] => false
  | [], _ :: _ => true
  | _ :: _, [] => false
  | a :: as, b :: bs => if a < b then true else if b < a then false else listLt as bs

/-- The sort key of a releases entry: `version_to_list(pair[0])`, with an
arbitrary default that is never consulted because the sort is only run
after every key has been checked to parse. -/
def keyOf (p : String × String) : List Nat :=
  (versionToList p.1).getD []

/-- The comparison `version_to_list(pair[0]) <= version_to_list(pair'[0])`
used by `releases.sort(key=lambda pair: version_to_list(pair[0]))`. -/
def relLe (p q : String × String) : Prop :=
  listLe (keyOf p) (keyOf q) = true

instance : DecidableRel relLe := fun _ _ => instDecidableEqBool _ _

/-- Strict descending comparison of two releases entries by parsed version. -/
def relGt (p q : String × String) : Prop :=
  listLt (keyOf q) (keyOf p) = true

instance : DecidableRel relGt := fun _ _ => instDecidableEqBool _ _

/-- The entries are in strictly descending version order (integer-triple
comparison on adjacent keys). -/
def strictDescByVersion (l : List (String × String)) : Prop :=
  List.Chain' relGt l

/-- Adjacent entries are in descending version order, allowing ties only
between keys that parse to the same version. -/
def descByVersionWithTies (l : List (String × String)) : Prop :=
  List.Chain' (fun p q => relGt p q ∨ keyOf p = keyOf q) l


/-- Every key of the list parses; when this fails the Python sort raises
`ValueError` while computing keys. -/
def allParse (l : List (String × String)) : Bool :=
  l.all (fun p => (versionToList p.1).isSome)

/-- `releases.sort(key=...)` followed by `OrderedDict(reversed(releases))`:
a stable ascending sort by parsed version, then reversal. -/
def sortDesc (l : List (String × String)) : List (String × String) :=
  (List.insertionSort relLe l).reverse

/-- The persisted Version Registry: `releases` and `aliases`, both
insertion-ordered string-to-string mappings. -/
structure Registry where
  releases : List (String × String)
  aliases : List (String × String)
deriving DecidableEq

/-- `main(args)` of `scripts/create_release.py`, as a function of the
observable environment: whether `git status --porcelain` reports a dirty
tree, the registry read from `emscripten-releases-tags.json`, the
command-line arguments, and the value the tip-of-tree resolver
(`emsdk.get_emscripten_releases_tot()`) would return.

Result: `(exit code, registry file on disk afterwards, branches created)`.
An uncaught Python exception (KeyError on a missing `latest` alias,
ValueError from `int`) terminates the process with exit code 1; every such
path precedes the file write, so the registry on disk is unchanged there.
The `git checkout -b` happens after `latest` is parsed and before the
sort, which the branch list reflects. -/
def main (dirty : Bool) (reg : Registry) (args : List String) (tot : String) :
    Nat × Registry × List String :=
  if dirty then (1, reg, [])
  else
    match reg.aliases.lookup "latest" with
    | none => (1, reg, [])
    | some latest =>
      match versionToList latest with
      | none => (1, reg, [])
      | some ver =>
        let newVer := incLast ver
        let branch := branchName newVer
        let newVerStr := joinVer newVer
        let newHash := args.headD tot
        let rel := setKey reg.releases newVerStr newHash
        if allParse rel then
          (0, ⟨sortDesc rel, setKey reg.aliases "latest" newVerStr⟩, [branch])
        else (1, reg, [branch])

/-! ### Properties of the lexicographic comparison on version lists -/

theorem listLe_refl : ∀ l, listLe l l = true
  | [] => rfl
  | a :: as => by simp [listLe, listLe_refl as]

theorem listLe_total : ∀ a b, listLe a b = true ∨ listLe b a = true
  | [], _ => Or.inl rfl
  | _ :: _, [] => Or.inr rfl
  | a :: as, b :: bs => by
    rcases Nat.lt_trichotomy a b with h | h | h
    · exact Or.inl (by simp [listLe, h])
    · subst h
      rcases listLe_total as bs with h | h
      · exact Or.inl (by simp [listLe, h])
      · exact Or.inr (by simp [listLe, h])
    · exact Or.inr (by simp [listLe, h])

theorem listLe_trans : ∀ {a b c}, listLe a b = true → listLe b c = true → listLe a c = true
  | [], _, _, _, _ => rfl
  | _ :: _, [], _, h, _ => by simp [listLe] at h
  | _ :: _, _ :: _, [], _, h => by simp [listLe] at h
  | a :: as, b :: bs, c :: cs, h₁, h₂ => by
    simp only [listLe] at h₁ h₂ ⊢
    split_ifs at h₁ h₂ ⊢ with hab hba hbc hcb hac hca <;>
      first
        | rfl
        | omega
        | (exact listLe_trans h₁ h₂)

theorem listLe_antisymm : ∀ {a b}, listLe a b = true → listLe b a = true → a = b
  | [], [], _, _ => rfl
  | [], _ :: _, _, h => by simp [listLe] at h
  | _ :: _, [], h, _ => by simp [listLe] at h
  | a :: as, b :: bs, h₁, h₂ => by
    simp only [listLe] at h₁ h₂
    by_cases hab : a < b
    · rw [if_neg (by omega), if_pos hab] at h₂
      exact absurd h₂ (by simp)
    · by_cases hba : b < a
      · rw [if_neg hab, if_pos hba] at h₁
        exact absurd h₁ (by simp)
      · have hab2 : a = b := by omega
        subst hab2
        rw [if_neg hab, if_neg hab] at h₁
        rw [if_neg hab, if_neg hab] at h₂
        rw [listLe_antisymm h₁ h₂]

theorem listLt_iff : ∀ {a b}, listLt a b = true ↔ listLe a b = true ∧ a ≠ b
  | [], [] => by simp [listLt, listLe]
  | [], _ :: _ => by simp [listLt, listLe]
  | _ :: _, [] => by simp [listLt, listLe]
  | a :: as, b :: bs => by
    simp only [listLt, listLe]
    by_cases hab : a < b
    · simp only [if_pos hab]
      constructor
      · intro _
        refine ⟨by trivial, fun h => ?_⟩
        cases h
        omega
      · intro _
        trivial
    · by_cases hba : b < a
      · simp only [if_neg hab, if_pos hba]
        constructor
        · intro h
          exact absurd h (by simp)
        · rintro ⟨h, -⟩
          exact absurd h (by simp)
      · have hab2 : a = b := by omega
        subst hab2
        simp only [if_neg hab]
        rw [listLt_iff (a := as) (b := bs)]
        simp

theorem listLe_eq_false_of_listLt {a b : List Nat} (h : listLt a b = true) :
    listLe b a = false := by
  rcases listLt_iff.mp h with ⟨hle, hne⟩
  by_contra hba
  exact hne (listLe_antisymm hle (by revert hba; cases listLe b a <;> simp))

theorem listLt_trans : ∀ {a b c}, listLt a b = true → listLt b c = true → listLt a c = true := by
  intro a b c h₁ h₂
  rcases listLt_iff.mp h₁ with ⟨le₁, _⟩
  rcases listLt_iff.mp h₂ with ⟨le₂, _⟩
  refine listLt_iff.mpr ⟨listLe_trans le₁ le₂, fun hac => ?_⟩
  subst hac
  exact absurd (listLe_eq_false_of_listLt h₂) (by simp [le₁])

instance : IsTotal (String × String) relLe := ⟨fun _ _ => listLe_total _ _⟩

instance : IsTrans (String × String) relLe := ⟨fun _ _ _ => listLe_trans⟩

instance : IsTrans (String × String) relGt := ⟨fun _ _ _ h₁ h₂ => listLt_trans h₂ h₁⟩

/-! ### Properties of tokenisation and parsing -/

theorem isDelim_eq_false_of_isDigit {c : Char} (h : c.isDigit = true) : isDelim c = false := by
  by_cases h1 : c = '.'
  · subst h1
    exact absurd h (by decide)
  · by_cases h2 : c = '-'
    · subst h2
      exact absurd h (by decide)
    · simp [isDelim, h1, h2]

theorem noDelim_of_parseNat {l : List Char} {n : Nat} (h : parseNat l = some n) :
    ∀ c ∈ l, isDelim c = false := by
  intro c hc
  rw [parseNat] at h
  split_ifs at h with hcond
  exact isDelim_eq_false_of_isDigit (List.all_eq_true.mp hcond.2 c hc)

theorem splitTokens_ne_nil : ∀ l, splitTokens l ≠ []
  | [] => by simp [splitTokens]
  | c :: cs => by
    simp only [splitTokens]
    split_ifs <;> simp

theorem splitTokens_noDelim : ∀ l, (∀ c ∈ l, isDelim c = false) → splitTokens l = [l]
  | [], _ => rfl
  | c :: cs, h => by
    have h1 : isDelim c = false := h c (by simp)
    have h2 : splitTokens cs = [cs] := splitTokens_noDelim cs (fun x hx => h x (by simp [hx]))
    simp [splitTokens, h1, h2]

theorem splitTokens_append_delim :
    ∀ (t : List Char) (d : Char) (rest : List Char), (∀ c ∈ t, isDelim c = false) →
      isDelim d = true → splitTokens (t ++ d :: rest) = t :: splitTokens rest
  | [], d, rest, _, hd => by simp [splitTokens, hd]
  | c :: cs, d, rest, ht, hd => by
    have h1 : isDelim c = false := ht c (by simp)
    have h2 := splitTokens_append_delim cs d rest (fun x hx => ht x (by simp [hx])) hd
    simp [splitTokens, h1, h2]

theorem length_of_mapM_parseNat :
    ∀ {ts : List (List Char)} {l : List Nat}, ts.mapM parseNat = some l → l.length = ts.length := by
  intro ts
  induction ts with
  | nil =>
    intro l h
    simp only [List.mapM_nil, Option.pure_def, Option.some.injEq] at h
    simp [← h]
  | cons t ts ih =>
    intro l h
    simp only [List.mapM_cons, Option.pure_def, Option.bind_eq_bind, Option.bind_eq_some] at h
    obtain ⟨n, hn, l2, hl2, heq⟩ := h
    rw [Option.some.injEq] at heq
    subst heq
    simp [ih hl2]

theorem incLast_append : ∀ (xs : List Nat) (a : Nat), incLast (xs ++ [a]) = xs ++ [a + 1]
  | [], _ => rfl
  | [x], _ => rfl
  | x :: y :: ys, a => by
    have h := incLast_append (y :: ys) a
    rw [List.cons_append] at h
    show x :: incLast (y :: (ys ++ [a])) = x :: y :: (ys ++ [a + 1])
    rw [h, List.cons_append]

/-! ### Claim theorems -/

/-- C1: promoting the registry
`releases = [("1.0.0", "abc")], aliases = [("latest", "1.0.0")]` with
explicit provenance `"def"` (whatever the tip-of-tree resolver would have
returned) succeeds and yields
`releases = [("1.0.1", "def"), ("1.0.0", "abc")]` in that descending order,
with `aliases["latest"] = "1.0.1"`. -/
theorem promote_example_registry (tot : String) :
    main false ⟨[("1.0.0", "abc")], [("latest", "1.0.0")]⟩ ["def"] tot
      = (0, ⟨[("1.0.1", "def"), ("1.0.0", "abc")], [("latest", "1.0.1")]⟩,
         ["version_1_0_1"]) := rfl

/-- C3: the version-increment step adds exactly 1 to the patch (third)
component: `[1, 2, 3]` becomes `[1, 2, 4]`, and on every version triple the
major and minor components are unchanged. -/
theorem incLast_increments_patch_only :
    incLast [1, 2, 3] = [1, 2, 4] ∧ ∀ a b c : Nat, incLast [a, b, c] = [a, b, c + 1] :=
  ⟨rfl, fun _ _ _ => rfl⟩

/-- C4: when the working tree is dirty, `main` exits with code 1 before any
mutation: the registry file is unchanged and no branch was created, for
every registry, argument list and resolver value. -/
theorem dirty_tree_exits_without_mutation (reg : Registry) (args : List String) (tot : String) :
    main true reg args tot = (1, reg, []) := rfl

/-- C8: the branch name joins the fixed literal tag `version_` with the
three integer components separated by underscores; for `[2, 0, 1]` it is
exactly `"version_2_0_1"`. -/
theorem branchName_underscore_join (a b c : Nat) :
    branchName [a, b, c]
        = "version_" ++ toString a ++ "_" ++ toString b ++ "_" ++ toString c
    ∧ branchName [2, 0, 1] = "version_2_0_1" := by
  constructor
  · simp [branchName, String.intercalate, String.intercalate.go, String.append_assoc]
  · rfl

/-- C2: on every valid version string `"X.Y.Z"` — three period-separated
tokens each parsing as a non-negative integer, possibly followed by further
period- or hyphen-delimited components — `version_to_list` returns exactly
`[X, Y, Z]`, discarding everything after the third component. -/
theorem versionToList_three_components (s : String) (s1 s2 s3 rest : List Char) (X Y Z : Nat)
    (hs : s.data = s1 ++ '.' :: (s2 ++ '.' :: (s3 ++ rest)))
    (h1 : parseNat s1 = some X) (h2 : parseNat s2 = some Y) (h3 : parseNat s3 = some Z)
    (hrest : rest = [] ∨ ∃ d r, rest = d :: r ∧ isDelim d = true) :
    versionToList s = some [X, Y, Z] := by
  have n1 := noDelim_of_parseNat h1
  have n2 := noDelim_of_parseNat h2
  have n3 := noDelim_of_parseNat h3
  have hsplit : splitTokens s.data = s1 :: s2 :: splitTokens (s3 ++ rest) := by
    rw [hs, splitTokens_append_delim s1 '.' _ n1 rfl,
      splitTokens_append_delim s2 '.' _ n2 rfl]
  have htok : (splitTokens s.data).take 3 = [s1, s2, s3] := by
    rcases hrest with h | ⟨d, r, hdr, hd⟩
    · subst h
      rw [hsplit, List.append_nil, splitTokens_noDelim s3 n3]
      rfl
    · subst hdr
      rw [hsplit, splitTokens_append_delim s3 d r n3 hd]
      rfl
  rw [versionToList, htok]
  rw [List.mapM_cons, List.mapM_cons, List.mapM_cons, List.mapM_nil]
  simp [h1, h2, h3]

/-- C2 witness: `"1.2.3-rc1"` parses to `[1, 2, 3]`. -/
theorem versionToList_three_components_witness :
    versionToList "1.2.3-rc1" = some [1, 2, 3] :=
  versionToList_three_components "1.2.3-rc1" ['1'] ['2'] ['3']
    ['-', 'r', 'c', '1'] 1 2 3 (by decide) (by decide) (by decide) (by decide)
    (Or.inr ⟨'-', ['r', 'c', '1'], rfl, by decide⟩)

/-- C10: `version_to_list` does not pad its result: on success the result
has exactly one integer per retained component (`min 3` of the token
count), and the increment step bumps the last element of the list,
whatever component that is, leaving the others unchanged. -/
theorem versionToList_no_padding (s : String) (l : List Nat)
    (h : versionToList s = some l) (hne : l ≠ []) :
    l.length = min 3 (splitTokens s.data).length
    ∧ incLast l = l.dropLast ++ [l.getLast hne + 1] := by
  constructor
  · rw [versionToList] at h
    rw [length_of_mapM_parseNat h, List.length_take]
  · conv_lhs => rw [← List.dropLast_append_getLast hne]
    rw [incLast_append]

/-- C10 witness: `"1.2"` parses to the two-element list `[1, 2]` and the
increment step turns it into `[1, 3]`. -/
theorem versionToList_no_padding_witness :
    versionToList "1.2" = some [1, 2]
    ∧ ([1, 2] : List Nat).length = min 3 (splitTokens "1.2".data).length
    ∧ incLast [1, 2] = [1, 2].dropLast ++ [[1, 2].getLast (by decide) + 1] :=
  ⟨by decide, versionToList_no_padding "1.2" [1, 2] (by decide) (by decide)⟩

/-! ### Properties of the descending re-sort -/

theorem listLt_or_eq_of_listLe {x y : List Nat} (h : listLe x y = true) :
    listLt x y = true ∨ x = y := by
  by_cases hxy : x = y
  · exact Or.inr hxy
  · exact Or.inl (listLt_iff.mpr ⟨h, hxy⟩)

theorem not_relLe_of_relGt {a b : String × String} (h : relGt a b) : ¬ relLe a b := by
  intro hle
  have hf := listLe_eq_false_of_listLt h
  rw [relLe] at hle
  rw [hle] at hf
  exact absurd hf (by simp)

theorem orderedInsert_of_not_relLe (a : String × String) :
    ∀ l, (∀ b ∈ l, ¬ relLe a b) → List.orderedInsert relLe a l = l ++ [a]
  | [], _ => rfl
  | b :: l, h => by
    simp only [List.orderedInsert]
    rw [if_neg (h b (by simp)), orderedInsert_of_not_relLe a l (fun x hx => h x (by simp [hx]))]
    rfl

theorem insertionSort_of_strictDesc :
    ∀ l, strictDescByVersion l → List.insertionSort relLe l = l.reverse
  | [], _ => rfl
  | a :: l, h => by
    have hp : ∀ b ∈ l, relGt a b := by
      have hpw := (List.chain'_iff_pairwise).mp h
      exact fun b hb => (List.pairwise_cons.mp hpw).1 b hb
    have ih := insertionSort_of_strictDesc l h.tail
    simp only [List.insertionSort]
    rw [ih, orderedInsert_of_not_relLe a l.reverse
      (fun b hb => not_relLe_of_relGt (hp b (List.mem_reverse.mp hb)))]
    simp

/-- C5 counterexample: two distinct keys of the input registry parse to the
same version triple (`"1.0.0"` and `"1.0.0-x"`), so after a successful
promotion the releases entries are NOT in strictly descending version
order (adjacent keys with equal triples remain). -/
theorem promote_not_strictly_descending :
    main false ⟨[("1.0.0", "a"), ("1.0.0-x", "b")], [("latest", "1.0.0")]⟩ ["h"] "t"
      = (0, ⟨[("1.0.1", "h"), ("1.0.0-x", "b"), ("1.0.0", "a")], [("latest", "1.0.1")]⟩,
         ["version_1_0_1"])
    ∧ ¬ strictDescByVersion [("1.0.1", "h"), ("1.0.0-x", "b"), ("1.0.0", "a")] := by
  refine ⟨by decide, fun hcontra => ?_⟩
  rw [strictDescByVersion, List.chain'_cons, List.chain'_pair] at hcontra
  exact absurd hcontra.2 (by decide)

/-- Inversion of the success path of `main`: exit code 0 pins down the
resulting registry and branch list in terms of the input. -/
theorem main_ok_inversion {reg : Registry} {args : List String} {tot : String}
    {r : Registry} {br : List String}
    (h : main false reg args tot = (0, r, br)) :
    ∃ latest ver,
      reg.aliases.lookup "latest" = some latest
      ∧ versionToList latest = some ver
      ∧ r = ⟨sortDesc (setKey reg.releases (joinVer (incLast ver)) (args.headD tot)),
             setKey reg.aliases "latest" (joinVer (incLast ver))⟩
      ∧ br = [branchName (incLast ver)] := by
  simp only [main] at h
  cases hl : reg.aliases.lookup "latest" with
  | none =>
    simp only [hl] at h
    exact absurd h (by simp)
  | some latest =>
    simp only [hl] at h
    cases hv : versionToList latest with
    | none =>
      simp only [hv] at h
      exact absurd h (by simp)
    | some ver =>
      simp only [hv] at h
      by_cases hap :
          allParse (setKey reg.releases (joinVer (incLast ver)) (args.headD tot)) = true
      · rw [if_pos hap] at h
        rw [Prod.mk.injEq, Prod.mk.injEq] at h
        exact ⟨latest, ver, rfl, hv, h.2.1.symm, h.2.2.symm⟩
      · rw [if_neg hap] at h
        exact absurd h (by simp)

/-- C5 (amended): after every successful promotion the releases entries are
in descending version order by component-wise comparison of the parsed
integer lists — adjacent entries are strictly descending except that two
keys parsing to the same version list may stay adjacent in either order.
String comparison is never used. -/
theorem promote_releases_sorted_descending (reg : Registry) (args : List String)
    (tot : String) (r : Registry) (br : List String)
    (h : main false reg args tot = (0, r, br)) :
    descByVersionWithTies r.releases := by
  obtain ⟨latest, ver, hl, hv, hr, hbr⟩ := main_ok_inversion h
  subst hr
  show descByVersionWithTies (sortDesc _)
  rw [descByVersionWithTies, sortDesc]
  apply List.Pairwise.chain'
  rw [List.pairwise_reverse]
  refine List.Pairwise.imp ?_ (List.sorted_insertionSort relLe _)
  intro p q hle
  rcases listLt_or_eq_of_listLe hle with hlt | heq
  · exact Or.inl hlt
  · exact Or.inr heq.symm

/-- C5 witness: promoting a registry whose latest version is `"1.10.0"`
(so the resolver value `"deadbeef"` is recorded) yields entries in
descending order — `"1.10.1"`, `"1.10.0"`, `"1.9.0"` — by integer
comparison, not string comparison. -/
theorem promote_releases_sorted_descending_witness :
    descByVersionWithTies [("1.10.1", "deadbeef"), ("1.10.0", "y"), ("1.9.0", "x")] :=
  promote_releases_sorted_descending
    ⟨[("1.9.0", "x"), ("1.10.0", "y")], [("latest", "1.10.0")]⟩ [] "deadbeef"
    ⟨[("1.10.1", "deadbeef"), ("1.10.0", "y"), ("1.9.0", "x")], [("latest", "1.10.1")]⟩
    ["version_1_10_1"] (by decide)

/-- C6 counterexample: the re-sort is NOT idempotent on every mapping in
(non-strict) descending version order. The mapping
`[("1.0.0-x", "b"), ("1.0.0", "a")]` is descending (its two keys parse to
the same version list), yet the stable ascending sort keeps the tied
entries in place and the subsequent reversal flips them, so the re-sort
changes the order; likewise re-applying the re-sort to one of its own
outputs flips the tied entries back. -/
theorem sortDesc_not_idempotent_on_ties :
    descByVersionWithTies [("1.0.0-x", "b"), ("1.0.0", "a")]
    ∧ sortDesc [("1.0.0-x", "b"), ("1.0.0", "a")] ≠ [("1.0.0-x", "b"), ("1.0.0", "a")]
    ∧ sortDesc (sortDesc [("1.0.1", "h"), ("1.0.0-x", "b"), ("1.0.0", "a")])
        ≠ sortDesc [("1.0.1", "h"), ("1.0.0-x", "b"), ("1.0.0", "a")] := by
  refine ⟨?_, by decide, by decide⟩
  rw [descByVersionWithTies, List.chain'_pair]
  exact Or.inr (by decide)

/-- C6 (amended): applying the descending re-sort to a releases mapping
whose entries are in strictly descending version order — no two keys
parsing to the same version list, the only case the counterexample
excludes — returns the entries in the same order. -/
theorem sortDesc_of_strictDesc (l : List (String × String)) (h : strictDescByVersion l) :
    sortDesc l = l := by
  rw [sortDesc, insertionSort_of_strictDesc l h, List.reverse_reverse]

/-- C6 witness: a two-entry mapping already in descending order is returned
unchanged by the re-sort. -/
theorem sortDesc_of_strictDesc_witness :
    strictDescByVersion [("1.10.0", "x"), ("1.9.0", "y")]
    ∧ sortDesc [("1.10.0", "x"), ("1.9.0", "y")] = [("1.10.0", "x"), ("1.9.0", "y")] :=
  have hd : strictDescByVersion [("1.10.0", "x"), ("1.9.0", "y")] := by
    rw [strictDescByVersion, List.chain'_pair]
    decide
  ⟨hd, sortDesc_of_strictDesc _ hd⟩

/-! ### Membership lemmas for the registry mappings -/

theorem mem_sortDesc {x : String × String} {l : List (String × String)} :
    x ∈ sortDesc l ↔ x ∈ l := by
  rw [sortDesc, List.mem_reverse]
  exact (List.perm_insertionSort relLe l).mem_iff

theorem mem_setKey_self (l : List (String × String)) (k v : String) :
    (k, v) ∈ setKey l k v := by
  rw [setKey]
  split_ifs with hany
  · obtain ⟨p, hp, hpk⟩ := List.any_eq_true.mp hany
    exact List.mem_map.mpr ⟨p, hp, by simp [of_decide_eq_true hpk]⟩
  · exact List.mem_append_right _ (by simp)

theorem map_fst_setKey_present {l : List (String × String)} {k v : String}
    (hany : l.any (fun p => p.1 = k) = true) :
    (setKey l k v).map Prod.fst = l.map Prod.fst := by
  rw [setKey, if_pos hany, List.map_map]
  refine List.map_congr_left ?_
  intro p _
  by_cases hpk : p.1 = k
  · simp [hpk]
  · simp [hpk]

theorem mem_map_fst_setKey {l : List (String × String)} {k v x : String}
    (hx : x ∈ l.map Prod.fst ∨ x = k) : x ∈ (setKey l k v).map Prod.fst := by
  by_cases hany : l.any (fun p => p.1 = k) = true
  · rw [map_fst_setKey_present hany]
    rcases hx with h | rfl
    · exact h
    · obtain ⟨p, hp, hpk⟩ := List.any_eq_true.mp hany
      exact List.mem_map.mpr ⟨p, hp, of_decide_eq_true hpk⟩
  · rw [setKey, if_neg hany, List.map_append]
    rcases hx with h | rfl
    · exact List.mem_append_left _ h
    · exact List.mem_append_right _ (by simp)

theorem mem_setKey_elim {l : List (String × String)} {k v : String} {p : String × String}
    (hp : p ∈ setKey l k v) : p ∈ l ∨ p = (k, v) := by
  rw [setKey] at hp
  split_ifs at hp with hany
  · obtain ⟨q, hq, hqe⟩ := List.mem_map.mp hp
    by_cases hqk : q.1 = k
    · right
      rw [← hqe, if_pos hqk]
    · left
      rw [← hqe, if_neg hqk]
      exact hq
  · rcases List.mem_append.mp hp with h | h
    · exact Or.inl h
    · right
      simpa using h

theorem mem_map_fst_sortDesc {x : String} {l : List (String × String)} :
    x ∈ (sortDesc l).map Prod.fst ↔ x ∈ l.map Prod.fst :=
  have hperm : List.Perm (sortDesc l) l :=
    (List.reverse_perm _).trans (List.perm_insertionSort relLe l)
  (hperm.map Prod.fst).mem_iff

/-- C7: the provenance identifier recorded for the new release is the first
positional command-line argument when one is supplied, and otherwise the
value returned by the tip-of-tree resolver. -/
theorem provenance_from_args_or_tot (reg : Registry) (args : List String) (tot : String)
    (r : Registry) (br : List String) (latest : String) (ver : List Nat)
    (hl : reg.aliases.lookup "latest" = some latest)
    (hv : versionToList latest = some ver)
    (h : main false reg args tot = (0, r, br)) :
    (args = [] → (joinVer (incLast ver), tot) ∈ r.releases)
    ∧ ∀ a rest, args = a :: rest → (joinVer (incLast ver), a) ∈ r.releases := by
  obtain ⟨latest2, ver2, hl2, hv2, hr, -⟩ := main_ok_inversion h
  rw [hl] at hl2
  rw [Option.some.injEq] at hl2
  subst hl2
  rw [hv] at hv2
  rw [Option.some.injEq] at hv2
  subst hv2
  subst hr
  constructor
  · intro ha
    subst ha
    show _ ∈ sortDesc _
    rw [mem_sortDesc]
    exact mem_setKey_self _ _ _
  · intro a rest ha
    subst ha
    show _ ∈ sortDesc _
    rw [mem_sortDesc]
    exact mem_setKey_self _ _ _

/-- C7 witness: with argument `"cafe"` supplied, the new release `"2.0.1"`
is recorded with provenance `"cafe"`, not the resolver value `"tt"`. -/
theorem provenance_from_args_or_tot_witness :
    ((["cafe"] : List String) = [] →
      (joinVer (incLast [2, 0, 0]), "tt") ∈ [("2.0.1", "cafe"), ("2.0.0", "aa")])
    ∧ (∀ a rest, (["cafe"] : List String) = a :: rest →
      (joinVer (incLast [2, 0, 0]), a) ∈ [("2.0.1", "cafe"), ("2.0.0", "aa")]) :=
  provenance_from_args_or_tot ⟨[("2.0.0", "aa")], [("latest", "2.0.0")]⟩ ["cafe"] "tt"
    ⟨[("2.0.1", "cafe"), ("2.0.0", "aa")], [("latest", "2.0.1")]⟩ ["version_2_0_1"]
    "2.0.0" [2, 0, 0] (by decide) (by decide) (by decide)

/-- The registry invariant: every alias value references a key of
`releases`. -/
def aliasInvariant (reg : Registry) : Prop :=
  ∀ p ∈ reg.aliases, p.2 ∈ reg.releases.map Prod.fst

/-- C9: every successful promotion preserves the invariant that every alias
value references an existing releases key: the new version string is
inserted into `releases` and `aliases["latest"]` is repointed to it. -/
theorem promote_preserves_alias_invariant (reg : Registry) (args : List String)
    (tot : String) (r : Registry) (br : List String)
    (hinv : aliasInvariant reg) (h : main false reg args tot = (0, r, br)) :
    aliasInvariant r := by
  obtain ⟨latest, ver, hl, hv, hr, -⟩ := main_ok_inversion h
  subst hr
  intro p hp
  show p.2 ∈ (sortDesc _).map Prod.fst
  rw [mem_map_fst_sortDesc]
  rcases mem_setKey_elim hp with hmem | rfl
  · exact mem_map_fst_setKey (Or.inl (hinv p hmem))
  · exact mem_map_fst_setKey (Or.inr rfl)

/-- C9 witness: the invariant holds for the result of promoting a
one-release registry with the resolver value `"tip"`. -/
theorem promote_preserves_alias_invariant_witness :
    aliasInvariant ⟨[("3.0.1", "tip"), ("3.0.0", "zz")], [("latest", "3.0.1")]⟩ :=
  promote_preserves_alias_invariant ⟨[("3.0.0", "zz")], [("latest", "3.0.0")]⟩ [] "tip"
    ⟨[("3.0.1", "tip"), ("3.0.0", "zz")], [("latest", "3.0.1")]⟩ ["version_3_0_1"]
    (fun p hp => by
      obtain rfl := List.mem_singleton.mp hp
      decide)
    (by decide)

end CreateRelease
